import Mathlib

set_option linter.unusedSectionVars false

/-!
Verification of the `ent` struct-of-arrays storage containers.

Embedded components:

* `Ent.Table B R` — the block-chain table `ent::table<Name, BlockSize, Ts...>`
  (src/unnamed/part_001).  A row is modelled as a single value of type `R`
  (the tuple of all column values of that row); per-column `get<T>`/`set<T>`
  are projections / component updates of `R`, which is faithful because every
  block stores, per column, an array of `BlockSize` values, and all row-level
  operations act slot-wise.  `T{}` (the default value of every column) is
  `(default : R)` via `Inhabited R`.

* `Ent.FlexTable R` — the swap-erase indirection store `ent::flex_table<Ts...>`
  (src/include/ent.hpp).  Same row-as-`R` convention; `add`, `erase`, `clear`
  act uniformly on all columns, so the per-column `flex_vec`s are modelled as
  one backing list of rows.

Representation conventions, stated once:

* `free_indices_` is a `std::vector<size_t>` that the code touches only via
  `back()`, `push_back` and `pop_back` (plus wholesale refill by
  `resize` + `iota`).  It is modelled back-first: the list head is the
  vector's back, so `push_back` is `cons`, `pop_back` is `tail`, `back()` is
  `headD`.  `std::iota(rbegin, rend, base)` over a vector of length `n`
  produces the vector `[base+n-1, …, base]`, i.e. the back-first list
  `List.range' base n`; `std::iota(begin, end, 0)` produces the vector
  `[0, …, n-1]`, i.e. the back-first list `(List.range n).reverse`.

* `index_map_` and the per-column data are index-addressed, so they are kept
  front-first;  `vec.back()` is the element at position `length - 1`.

* A block's storage is `fun (slot : Nat) => row`; only slots `< BlockSize`
  are ever addressed (every accessor reduces the element index modulo
  `BlockSize` first).

* `block_count_` always equals the length of the block chain: `add_block` is
  the only mutator of either and performs both the append and the increment,
  so the model uses `blocks.length` for it.
-/

namespace Ent

/-- Payload of the `std::out_of_range` exception thrown by
`table::make_lookup`: the formatted message names the table, the offending
index and the current capacity. -/
structure oor_error where
  name : String
  index : Nat
  capacity : Nat
deriving DecidableEq, Repr

/-- `table::lookup_t`: a block index and a sub (slot) index. -/
structure lookup_t where
  block : Nat
  sub : Nat
deriving DecidableEq, Repr

/-- State of `ent::table<Name, BlockSize, Ts...>` (src/unnamed/part_001):
the chain of blocks (`first_` … `last_`, modelled as the list of their
storages in chain order) and the free-index vector (back-first). -/
structure Table (B : Nat) (R : Type) where
  name : String
  blocks : List (Nat → R)
  free : List Nat

namespace Table

variable {B : Nat} {R : Type} [Inhabited R]

/-- `table::get_capacity`: `block_count_ * BlockSize`. -/
def get_capacity (t : Table B R) : Nat := t.blocks.length * B

/-- `table::make_lookup`: throws `std::out_of_range` (with the table name,
the index and the capacity) iff `elem_index >= get_capacity()`, otherwise
yields `{elem_index / BlockSize, elem_index % BlockSize}`. -/
def make_lookup (t : Table B R) (i : Nat) : Except oor_error lookup_t :=
  if i ≥ t.get_capacity then .error ⟨t.name, i, t.get_capacity⟩
  else .ok ⟨i / B, i % B⟩

/-- `table::get_block`: walk `next` pointers `idx` times from `first_`.
Walking past the end of the chain is a null dereference in the source; it is
unreachable because every caller first validates the element index through
`make_lookup` (see `block_index_lt_of_lookup`), so the fallback value here is
never produced. -/
def get_block (t : Table B R) (bi : Nat) : Nat → R :=
  t.blocks.getD bi (fun _ => default)

/-- Overwrite one slot of a block's storage with `f` of its current row
(the slot-wise effect of `block_t`'s `set`/`reset` helpers). -/
def upd_slot (blk : Nat → R) (s : Nat) (f : R → R) : Nat → R :=
  fun s2 => if s2 = s then f (blk s2) else blk s2

/-- Row read (`table::get(idx)` returning the full row tuple; `get<T>` is
this composed with the column's projection). -/
def getAt (t : Table B R) (i : Nat) : Except oor_error R :=
  (t.make_lookup i).map (fun lk => t.get_block lk.block lk.sub)

/-- Column write `table::set<T>(idx, value)` (and, with `f` a constant
function on the whole row, a full-row overwrite): look up, then assign the
component.  `f` is the component update on the row tuple. -/
def setAt (t : Table B R) (i : Nat) (f : R → R) : Except oor_error (Table B R) :=
  (t.make_lookup i).map (fun lk =>
    { t with blocks := t.blocks.set lk.block (upd_slot (t.get_block lk.block) lk.sub f) })

/-- `table::reset(block, idx)`: `(reset<Ts>(block, idx), ...)` sets every
column at that slot to `T{}`, i.e. the whole row to `default`. -/
def reset_row (blk : Nat → R) (s : Nat) : Nat → R :=
  upd_slot blk s (fun _ => default)

/-- `table::release`: under the lock, `make_lookup` (which throws on an
out-of-range index, leaving the table unchanged), reset the row, push the
index onto the free vector. -/
def release (t : Table B R) (i : Nat) : Except oor_error (Table B R) :=
  (t.make_lookup i).map (fun lk =>
    { t with blocks := t.blocks.set lk.block (reset_row (t.get_block lk.block) lk.sub),
             free := i :: t.free })

/-- `table::release_no_reset`: push the index onto the free vector; no
lookup, no reset. -/
def release_no_reset (t : Table B R) (i : Nat) : Table B R :=
  { t with free := i :: t.free }

/-- `table::clear_block`: reset every slot `0 ≤ s < BlockSize` of a block. -/
def clear_block (B : Nat) (blk : Nat → R) : Nat → R :=
  fun s => if s < B then (default : R) else blk s

/-- `table::clear`: under the lock, clear every block, then refill the free
vector with `[capacity-1, …, 0]` (back-first: `List.range capacity`). -/
def clear (t : Table B R) : Table B R :=
  { t with blocks := t.blocks.map (clear_block B),
           free := List.range t.get_capacity }

/-- `table::get_active_row_count`: `capacity - free_indices_.size()`. -/
def get_active_row_count (t : Table B R) : Nat :=
  t.get_capacity - t.free.length

/-- `new block_t`: `data` is a default-constructed `std::tuple` of
`std::array`s, whose elements are value-initialized, i.e. every slot holds
the default row. -/
def new_block (R : Type) [Inhabited R] : Nat → R := fun _ => default

/-- `table::add_block`: link a fresh block at the tail of the chain
(`block_count_` increments in lockstep with the chain length). -/
def add_block (t : Table B R) : Table B R :=
  { t with blocks := t.blocks ++ [new_block R] }

/-- `table::acquire`: under the lock, if the free vector is empty, refill it
with the `BlockSize` indices of the next block (`std::iota` from
`BlockSize * block_count_`, back-first `List.range'`) and link a new block;
then pop the back of the free vector.  `back()`/`pop_back()` on an empty
vector is undefined behaviour in the source and unreachable for
`BlockSize > 0`; the model returns the `headD 0` junk there. -/
def acquire (t : Table B R) : Nat × Table B R :=
  let t1 := if t.free.isEmpty
    then ({ t with free := List.range' t.get_capacity B } : Table B R).add_block
    else t
  (t1.free.headD 0, { t1 with free := t1.free.tail })

/-- A freshly constructed table: no blocks, empty free vector. -/
def fresh (B : Nat) (R : Type) [Inhabited R] (name : String) : Table B R :=
  ⟨name, [], []⟩

/-- `n` successive `acquire` calls, keeping only the final table. -/
def acquireN (n : Nat) (t : Table B R) : Table B R :=
  match n with
  | 0 => t
  | n + 1 => ((acquireN n t).acquire).2

/-- `n` successive `acquire` calls, collecting the returned indices in call
order. -/
def acquireList (n : Nat) (t : Table B R) : List Nat × Table B R :=
  match n with
  | 0 => ([], t)
  | n + 1 =>
    let p := t.acquire
    let q := acquireList n p.2
    (p.1 :: q.1, q.2)

/-- The table state after `set<T>(i, value)`: on an out-of-range index the
exception propagates before any mutation, so the table is unchanged. -/
def trySet (t : Table B R) (i : Nat) (f : R → R) : Table B R :=
  match t.setAt i f with
  | .ok t2 => t2
  | .error _ => t

/-- The table state after `release(i)`: on an out-of-range index the
exception propagates before any mutation, so the table is unchanged. -/
def tryRelease (t : Table B R) (i : Nat) : Table B R :=
  match t.release i with
  | .ok t2 => t2
  | .error _ => t

end Table

/-- Value swap `std::swap(l[a], l[b])` on a front-first list: position `a`
receives the original `l[b]` and position `b` the original `l[a]`. -/
def listSwap {α : Type} [Inhabited α] (l : List α) (a b : Nat) : List α :=
  (l.set a (l.getD b default)).set b (l.getD a default)

/-- State of `ent::flex_table<Ts...>` (src/include/ent.hpp): one backing list
of rows (`data`, front-first — the per-column `flex_vec`s move in lockstep),
the live row count `size_`, the public-index → backing-slot map `index_map_`
(front-first) and the reclaimed-public-index vector (back-first). -/
structure FlexTable (R : Type) where
  data : List R
  size : Nat
  index_map : List Nat
  free : List Nat

namespace FlexTable

variable {R : Type} [Inhabited R]

/-- A default-constructed `flex_table`: everything empty, `size_ = 0`. -/
def empty (R : Type) : FlexTable R := ⟨[], 0, [], []⟩

/-- `flex_table::add`: if no reclaimed index exists, append a fresh backing
slot to every column, record `size_` as its own backing slot in `index_map_`,
and return it; otherwise reuse the back of the free vector, resetting its
backing slot `index_map_[index]` to default columns.  (`index_map_[index]`
is unchecked vector indexing; out of range it is undefined behaviour,
modelled by the `getD` fallback.) -/
def add (t : FlexTable R) : Nat × FlexTable R :=
  match t.free with
  | [] =>
    let index := t.size
    (index, { data := t.data ++ [default], size := t.size + 1,
              index_map := t.index_map ++ [index], free := [] })
  | i :: rest =>
    (i, { t with data := t.data.set (t.index_map.getD i 0) default,
                 free := rest, size := t.size + 1 })

/-- `flex_table::clear`: `free_indices_.resize(size_)` then ascending
`std::iota` from the front (vector `[0, …, size_-1]`, back-first
`(List.range size_).reverse`); `index_map_` is reset to the identity by an
ascending `std::iota` over its whole length; `size_ = 0`; backing data is
untouched. -/
def clear (t : FlexTable R) : FlexTable R :=
  { t with free := (List.range t.size).reverse,
           index_map := List.range t.index_map.length,
           size := 0 }

/-- `flex_table::erase(index)`: for every column swap the backing values at
`index_map_[index]` and `index_map_.back()` (the entry of the highest-issued
public index), swap those two `index_map_` entries, push `index` onto the
free vector, decrement `size_`. -/
def erase (t : FlexTable R) (i : Nat) : FlexTable R :=
  { data := listSwap t.data (t.index_map.getD i 0)
      (t.index_map.getD (t.index_map.length - 1) 0),
    index_map := listSwap t.index_map i (t.index_map.length - 1),
    free := i :: t.free,
    size := t.size - 1 }

/-- `flex_table::is_valid`: false iff the index is past the ever-issued range
(`index >= index_map_.size()`) or sits in the free vector. -/
def is_valid (t : FlexTable R) (i : Nat) : Bool :=
  if t.index_map.length ≤ i then false
  else !(t.free.contains i)

/-- `flex_table::get<T>(index)` → `get<T>()[index_map_[index]]`: resolve the
backing slot through `index_map_` and read — no bounds check and no liveness
check anywhere on this path (out-of-range vector indexing is undefined
behaviour in the source, modelled by the `getD` fallbacks). -/
def getAt (t : FlexTable R) (i : Nat) : R :=
  t.data.getD (t.index_map.getD i 0) default

/-- `flex_table::set<T>(index, value)`: assign through the same unchecked
`index_map_` resolution; `f` is the component update on the row tuple. -/
def setAt (t : FlexTable R) (i : Nat) (f : R → R) : FlexTable R :=
  { t with
    data := t.data.set (t.index_map.getD i 0)
      (f (t.data.getD (t.index_map.getD i 0) default)) }

/-- Modelled from the spec: the spec's phrase "the backing slot of the
current last live row" — in the spec's dense picture the live rows occupy
backing slots `[0, size)`, so the last live row sits in slot `size - 1`.
Used only to compare the spec's description of `erase` against the code. -/
def lastLiveSlot (t : FlexTable R) : Nat := t.size - 1

end FlexTable

/-- A structural operation on the block-chain table, for stating invariants
over arbitrary operation sequences: `acquire`, `release i`,
`release_no_reset i`, `clear`. -/
inductive Op where
  | acq : Op
  | rel : Nat → Op
  | relNR : Nat → Op
  | clr : Op
deriving DecidableEq, Repr

/-- The table paired with the ghost multiset of indices the caller currently
holds (returned by `acquire` and not yet released). -/
structure SysState (B : Nat) (R : Type) where
  tbl : Table B R
  acquired : List Nat

namespace SysState

variable {B : Nat} {R : Type} [Inhabited R]

/-- Apply one structural operation.  A throwing `release` (out-of-range
index) propagates before any mutation, leaving the state unchanged. -/
def step (s : SysState B R) : Op → SysState B R
  | .acq =>
    let p := s.tbl.acquire
    ⟨p.2, p.1 :: s.acquired⟩
  | .rel i =>
    match s.tbl.release i with
    | .ok t2 => ⟨t2, s.acquired.erase i⟩
    | .error _ => s
  | .relNR i => ⟨s.tbl.release_no_reset i, s.acquired.erase i⟩
  | .clr => ⟨s.tbl.clear, []⟩

/-- Run a sequence of structural operations. -/
def exec (s : SysState B R) : List Op → SysState B R
  | [] => s
  | op :: ops => exec (s.step op) ops

/-- The caller-discipline check for one operation: both release variants may
only target a currently held index. -/
def okOp (s : SysState B R) : Op → Bool
  | .rel i => s.acquired.contains i
  | .relNR i => s.acquired.contains i
  | _ => true

/-- Caller discipline over a whole sequence: every release targets an index
held at that point (hence no double release and no release of a
never-acquired index). -/
def wfOps (s : SysState B R) : List Op → Bool
  | [] => true
  | op :: ops => okOp s op && wfOps (s.step op) ops

/-- The free-list/active-count invariant: the ghost held-index list has no
duplicates and stays below capacity; the free vector has no duplicates and
contains exactly the indices below capacity that are not currently held; and
`get_active_row_count` is capacity minus the number of free indices. -/
def Inv (s : SysState B R) : Prop :=
  s.acquired.Nodup ∧
  (∀ j ∈ s.acquired, j < s.tbl.get_capacity) ∧
  s.tbl.free.Nodup ∧
  (∀ j, j ∈ s.tbl.free ↔ (j < s.tbl.get_capacity ∧ j ∉ s.acquired)) ∧
  s.tbl.get_active_row_count = s.tbl.get_capacity - s.tbl.free.length

/-- The initial system state: a fresh table, nothing held. -/
def init (B : Nat) (R : Type) [Inhabited R] (name : String) : SysState B R :=
  ⟨Table.fresh B R name, []⟩

end SysState

/-! Concrete example states used to instantiate the general theorems. -/

/-- A fresh block-chain table with block size 2 and a single `Int` column. -/
def exT0 : Table 2 Int := Table.fresh 2 Int "w"

/-- `exT0` after one `acquire` (returned index 0; free vector holds 1). -/
def exT1 : Table 2 Int := (exT0.acquire).2

/-- `exT1` after `release(0)` (free vector holds 0 then 1). -/
def exRel : Table 2 Int := Table.tryRelease exT1 0

/-- `exT0` after two acquires and `set<Int>(0, 7)`: a table holding a value
at index 0 with its first block exactly full, so the next acquire grows. -/
def exC2 : Table 2 Int := Table.trySet (Table.acquireN 2 exT0) 0 (fun _ => 7)

/-- A well-formed operation sequence exercising acquire, both release
variants and clear. -/
def opsC4 : List Op := [.acq, .acq, .rel 0, .acq, .relNR 1, .clr, .acq]

/-- The spec's §8 scenario, step 1-3: block size 2, columns `(Int, Float)`
(the float column is stored and read back only, modelled exactly by `ℚ`);
three acquires from a fresh table. -/
def c8a1 : Nat × Table 2 (Int × ℚ) := (Table.fresh 2 (Int × ℚ) "test").acquire

/-- Second acquire of the §8 scenario. -/
def c8a2 : Nat × Table 2 (Int × ℚ) := c8a1.2.acquire

/-- Third acquire of the §8 scenario (triggers growth to capacity 4). -/
def c8a3 : Nat × Table 2 (Int × ℚ) := c8a2.2.acquire

/-- Rows 0 and 1 of the §8 scenario set to `(111, 111.1)` and `(222, 222.2)`
via per-column sets, then `release(0)`. -/
def c8rel : Table 2 (Int × ℚ) :=
  Table.tryRelease
    (Table.trySet (Table.trySet
      (Table.trySet (Table.trySet c8a3.2 0 (fun r => (111, r.2))) 0 (fun r => (r.1, 1111/10)))
        1 (fun r => (222, r.2))) 1 (fun r => (r.1, 2222/10)))
    0

/-- Re-acquire after the release in the §8 scenario. -/
def c8re : Nat × Table 2 (Int × ℚ) := c8rel.acquire

/-- `clear` after the re-acquire in the §8 scenario. -/
def c8clr : Table 2 (Int × ℚ) := c8re.2.clear

/-- First re-acquire after `clear` in the §8 scenario. -/
def c8f1 : Nat × Table 2 (Int × ℚ) := c8clr.acquire

/-- Second re-acquire after `clear` in the §8 scenario. -/
def c8f2 : Nat × Table 2 (Int × ℚ) := c8f1.2.acquire

/-- Third re-acquire after `clear` in the §8 scenario. -/
def c8f3 : Nat × Table 2 (Int × ℚ) := c8f2.2.acquire

/-- A `flex_table` with one `Int` column after four `add()` calls (public
indices 0-3, identity `index_map`). -/
def ce5add4 : FlexTable Int := (FlexTable.empty Int).add.2.add.2.add.2.add.2

/-- `ce5add4` with rows 0-3 holding 10, 20, 30, 40. -/
def ce5vals : FlexTable Int :=
  (((ce5add4.setAt 0 (fun _ => 10)).setAt 1 (fun _ => 20)).setAt 2
    (fun _ => 30)).setAt 3 (fun _ => 40)

/-- `ce5vals` after `erase(3)` (a self-swap: the highest-issued public index
is erased, leaving `index_map` the identity with 3 in the free vector). -/
def ce5pre : FlexTable Int := ce5vals.erase 3

/-- A `flex_table` after `add(), add(), erase(1), clear()` — the failing
input for the clear/free-list claim. -/
def c6state : FlexTable Int := (((FlexTable.empty Int).add.2.add.2).erase 1).clear

/-- A `flex_table` after `add(), add(), set(0,10), set(1,20), erase(0)`:
public index 0 is reclaimed (invalid), yet `get` on it executes and returns
a stale backing value. -/
def ce7flex : FlexTable Int :=
  (((FlexTable.empty Int).add.2.add.2.setAt 0 (fun _ => 10)).setAt 1
    (fun _ => 20)).erase 0

/-- Decidable equality of `Except` results, for evaluating accessor results
on concrete inputs. -/
instance {ε α : Type} [DecidableEq ε] [DecidableEq α] : DecidableEq (Except ε α) := fun a b =>
  match a, b with
  | .ok x, .ok y => if h : x = y then .isTrue (by simp [h]) else .isFalse (by simp [h])
  | .error x, .error y => if h : x = y then .isTrue (by simp [h]) else .isFalse (by simp [h])
  | .ok _, .error _ => .isFalse (by simp)
  | .error _, .ok _ => .isFalse (by simp)

theorem getD_set_self {α : Type} (l : List α) (n : Nat) (x d : α) (h : n < l.length) :
    (l.set n x).getD n d = x := by
  rw [List.getD_eq_getElem _ _ (by simpa using h)]
  simp [List.getElem_set_self]

theorem getD_set_ne {α : Type} (l : List α) (n m : Nat) (x d : α) (h : n ≠ m) :
    (l.set n x).getD m d = l.getD m d := by
  simp [List.getD_eq_getElem?_getD, List.getElem?_set_ne h]

theorem getD_mem {α : Type} (l : List α) (n : Nat) (d : α) (h : n < l.length) :
    l.getD n d ∈ l := by
  rw [List.getD_eq_getElem _ _ h]
  exact List.getElem_mem h

theorem nodup_getD_ne {l : List Nat} (h : l.Nodup) {i j : Nat} (hi : i < l.length)
    (hj : j < l.length) (hij : i ≠ j) : l.getD i 0 ≠ l.getD j 0 := by
  rw [List.getD_eq_getElem _ _ hi, List.getD_eq_getElem _ _ hj]
  intro hc
  exact hij (h.getElem_inj_iff.mp hc)

namespace Table

variable {B : Nat} {R : Type} [Inhabited R]

theorem B_pos_of_lt_cap {t : Table B R} {i : Nat} (h : i < t.get_capacity) : 0 < B := by
  rcases Nat.eq_zero_or_pos B with hB | hB
  · exfalso
    have hc : t.get_capacity = 0 := by
      rw [get_capacity]
      exact Nat.mul_eq_zero.mpr (Or.inr hB)
    rw [hc] at h
    exact Nat.not_lt_zero i h
  · exact hB

theorem block_index_lt_of_lookup {t : Table B R} {i : Nat} (h : i < t.get_capacity) :
    i / B < t.blocks.length :=
  (Nat.div_lt_iff_lt_mul (B_pos_of_lt_cap h)).2 h

theorem make_lookup_of_lt {t : Table B R} {i : Nat} (h : i < t.get_capacity) :
    t.make_lookup i = .ok ⟨i / B, i % B⟩ := by
  rw [make_lookup, if_neg (Nat.not_le.2 h)]

theorem make_lookup_of_ge {t : Table B R} {i : Nat} (h : t.get_capacity ≤ i) :
    t.make_lookup i = .error ⟨t.name, i, t.get_capacity⟩ := by
  rw [make_lookup, if_pos h]

theorem getAt_of_lt {t : Table B R} {i : Nat} (h : i < t.get_capacity) :
    t.getAt i = .ok (t.get_block (i / B) (i % B)) := by
  rw [getAt, make_lookup_of_lt h]; rfl

theorem setAt_of_lt {t : Table B R} {i : Nat} (f : R → R) (h : i < t.get_capacity) :
    t.setAt i f = .ok
      { t with blocks := t.blocks.set (i / B) (upd_slot (t.get_block (i / B)) (i % B) f) } := by
  rw [setAt, make_lookup_of_lt h]; rfl

theorem release_of_lt {t : Table B R} {i : Nat} (h : i < t.get_capacity) :
    t.release i = .ok
      { t with blocks := t.blocks.set (i / B) (reset_row (t.get_block (i / B)) (i % B)),
               free := i :: t.free } := by
  rw [release, make_lookup_of_lt h]; rfl

theorem acquire_cons {t : Table B R} {a : Nat} {rest : List Nat} (hf : t.free = a :: rest) :
    t.acquire = (a, { t with free := rest }) := by
  simp [acquire, hf]

theorem acquire_nil {t : Table B R} (hf : t.free = []) (hB : 0 < B) :
    t.acquire = (t.get_capacity,
      { t with blocks := t.blocks ++ [new_block R],
               free := List.range' (t.get_capacity + 1) (B - 1) }) := by
  obtain ⟨b, rfl⟩ : ∃ b, B = b + 1 := ⟨B - 1, (Nat.succ_pred_eq_of_pos hB).symm⟩
  simp [acquire, hf, add_block, List.range'_succ]

theorem get_capacity_set_free (t : Table B R) (x : List Nat) :
    ({ t with free := x } : Table B R).get_capacity = t.get_capacity := rfl

theorem getAt_set_free (t : Table B R) (x : List Nat) (i : Nat) :
    ({ t with free := x } : Table B R).getAt i = t.getAt i := rfl

theorem get_capacity_grow (t : Table B R) (bk : Nat → R) (x : List Nat) :
    ({ t with blocks := t.blocks ++ [bk], free := x } : Table B R).get_capacity
      = t.get_capacity + B := by
  show (t.blocks ++ [bk]).length * B = t.blocks.length * B + B
  rw [List.length_append, List.length_cons, List.length_nil, Nat.succ_mul]

theorem getAt_grow {t : Table B R} {i : Nat} (bk : Nat → R) (x : List Nat)
    (h : i < t.get_capacity) :
    ({ t with blocks := t.blocks ++ [bk], free := x } : Table B R).getAt i = t.getAt i := by
  have h2 : i < ({ t with blocks := t.blocks ++ [bk], free := x } : Table B R).get_capacity := by
    rw [get_capacity_grow]; exact Nat.lt_of_lt_of_le h (Nat.le_add_right _ _)
  rw [getAt_of_lt h, getAt_of_lt h2]
  show Except.ok ((t.blocks ++ [bk]).getD (i / B) _ (i % B)) = _
  rw [List.getD_append _ _ _ _ (block_index_lt_of_lookup h)]
  rfl

theorem cap_le_acquire (t : Table B R) : t.get_capacity ≤ ((t.acquire).2).get_capacity := by
  rcases hf : t.free with _ | ⟨a, rest⟩
  · by_cases hB : 0 < B
    · rw [acquire_nil hf hB, get_capacity_grow]
      exact Nat.le_add_right _ _
    · have hB0 : B = 0 := Nat.eq_zero_of_not_pos hB
      subst hB0
      simp [get_capacity]
  · rw [acquire_cons hf]
    exact Nat.le_refl _

theorem getAt_acquire {t : Table B R} {i : Nat} (h : i < t.get_capacity) :
    (((t.acquire).2)).getAt i = t.getAt i := by
  rcases hf : t.free with _ | ⟨a, rest⟩
  · rw [acquire_nil hf (B_pos_of_lt_cap h)]
    exact getAt_grow _ _ h
  · rw [acquire_cons hf]
    rfl

theorem cap_le_acquireN (t : Table B R) (n : Nat) :
    t.get_capacity ≤ (acquireN n t).get_capacity := by
  induction n with
  | zero => exact Nat.le_refl _
  | succ n ih => exact Nat.le_trans ih (cap_le_acquire _)

theorem cap_fresh (nm : String) : (fresh B R nm).get_capacity = 0 := Nat.zero_mul B

/-- State of a fresh table after `n` acquires: the free vector holds exactly
the seeded-but-not-yet-handed-out indices `[n, capacity)`, at most one
block's worth of them (`capacity - B < n` once a block exists), and `n`
never exceeds capacity. -/
theorem acquireN_fresh_inv (hB : 0 < B) (nm : String) (n : Nat) :
    (acquireN n (fresh B R nm)).free
        = List.range' n ((acquireN n (fresh B R nm)).get_capacity - n) ∧
      n ≤ (acquireN n (fresh B R nm)).get_capacity ∧
      ((acquireN n (fresh B R nm)).blocks.length = 0 ∨
        (acquireN n (fresh B R nm)).get_capacity - B < n) := by
  induction n with
  | zero =>
    refine ⟨?_, Nat.zero_le _, Or.inl rfl⟩
    rw [show acquireN 0 (fresh B R nm) = fresh B R nm from rfl, cap_fresh]
    rfl
  | succ n ih =>
    obtain ⟨h1, h2, h3⟩ := ih
    have hstep : acquireN (n + 1) (fresh B R nm) = ((acquireN n (fresh B R nm)).acquire).2 := rfl
    set t := acquireN n (fresh B R nm) with ht
    rcases hm : t.get_capacity - n with _ | m
    · have hn : n = t.get_capacity := Nat.le_antisymm h2 (Nat.le_of_sub_eq_zero hm)
    -- the free vector is exhausted: acquire seeds a new block
      have hfree : t.free = [] := by rw [h1, hm]; rfl
      rw [hstep, acquire_nil hfree hB]
      refine ⟨?_, ?_, Or.inr ?_⟩
      · rw [get_capacity_grow]
        show List.range' (t.get_capacity + 1) (B - 1)
          = List.range' (n + 1) (t.get_capacity + B - (n + 1))
        rw [← hn]
        congr 1
        omega
      · rw [get_capacity_grow]
        omega
      · rw [get_capacity_grow]
        omega
    · have hfree : t.free = n :: List.range' (n + 1) m := by
        rw [h1, hm, List.range'_succ]
      rw [hstep, acquire_cons hfree]
      refine ⟨?_, ?_, ?_⟩
      · show List.range' (n + 1) m = List.range' (n + 1) (t.get_capacity - (n + 1))
        congr 1
        omega
      · show n + 1 ≤ t.get_capacity
        omega
      · right
        show t.get_capacity - B < n + 1
        rcases h3 with h3 | h3
        · exfalso
          have hc0 : t.get_capacity = 0 := by rw [get_capacity, h3, Nat.zero_mul]
          omega
        · omega

theorem getAt_set_blocks {t : Table B R} {i : Nat} (nb : Nat → R) (x : List Nat)
    (h : i < t.get_capacity) :
    ({ t with blocks := t.blocks.set (i / B) nb, free := x } : Table B R).getAt i
      = .ok (nb (i % B)) := by
  have hcap : ({ t with blocks := t.blocks.set (i / B) nb, free := x } :
      Table B R).get_capacity = t.get_capacity := by
    show (t.blocks.set (i / B) nb).length * B = t.blocks.length * B
    rw [List.length_set]
  rw [getAt_of_lt (hcap ▸ h)]
  show Except.ok ((t.blocks.set (i / B) nb).getD (i / B) _ (i % B)) = _
  rw [Ent.getD_set_self _ _ _ _ (block_index_lt_of_lookup h)]

theorem cap_clear (t : Table B R) : (t.clear).get_capacity = t.get_capacity := by
  show (t.blocks.map _).length * B = t.blocks.length * B
  rw [List.length_map]

theorem acquireList_range' (n : Nat) :
    ∀ (t : Table B R) (a m : Nat), t.free = List.range' a m → n ≤ m →
      (acquireList n t).1 = List.range' a n := by
  induction n with
  | zero =>
    intro t a m _ _
    rfl
  | succ n ih =>
    intro t a m hf hnm
    rcases m with _ | m2
    · exact absurd hnm (by omega)
    · have hf2 : t.free = a :: List.range' (a + 1) m2 := by rw [hf, List.range'_succ]
      simp only [acquireList, acquire_cons hf2]
      rw [ih ({ t with free := List.range' (a + 1) m2 }) (a + 1) m2 rfl
        (Nat.le_of_succ_le_succ hnm), List.range'_succ]

end Table

namespace SysState

variable {B : Nat} {R : Type} [Inhabited R]

theorem step_inv (hB : 0 < B) {s : SysState B R} {op : Op} (hInv : Inv s)
    (hok : okOp s op = true) : Inv (s.step op) := by
  obtain ⟨hA, hAcap, hNd, hmem, hact⟩ := hInv
  cases op with
  | clr =>
    refine ⟨List.nodup_nil, fun j hj => absurd hj (List.not_mem_nil j), ?_, ?_, rfl⟩
    · show (List.range s.tbl.get_capacity).Nodup
      exact List.nodup_range _
    · intro j
      show j ∈ List.range s.tbl.get_capacity
        ↔ j < (s.tbl.clear).get_capacity ∧ j ∉ ([] : List Nat)
      rw [Table.cap_clear, List.mem_range]
      simp
  | relNR i =>
    have hiA : i ∈ s.acquired := by simpa [okOp] using hok
    have hicap : i < s.tbl.get_capacity := hAcap i hiA
    have hinf : i ∉ s.tbl.free := fun hc => ((hmem i).1 hc).2 hiA
    refine ⟨hA.erase i, ?_, ?_, ?_, rfl⟩
    · intro j hj
      exact hAcap j (List.mem_of_mem_erase hj)
    · show (i :: s.tbl.free).Nodup
      exact List.nodup_cons.mpr ⟨hinf, hNd⟩
    · intro j
      show j ∈ i :: s.tbl.free ↔ j < s.tbl.get_capacity ∧ j ∉ s.acquired.erase i
      rw [List.mem_cons, hA.mem_erase_iff]
      constructor
      · rintro (rfl | hj)
        · exact ⟨hicap, fun hc => hc.1 rfl⟩
        · obtain ⟨hjc, hjA⟩ := (hmem j).1 hj
          exact ⟨hjc, fun hc => hjA hc.2⟩
      · rintro ⟨hjc, hjA⟩
        by_cases hji : j = i
        · exact Or.inl hji
        · exact Or.inr ((hmem j).2 ⟨hjc, fun hjA2 => hjA ⟨hji, hjA2⟩⟩)
  | rel i =>
    have hiA : i ∈ s.acquired := by simpa [okOp] using hok
    have hicap : i < s.tbl.get_capacity := hAcap i hiA
    have hinf : i ∉ s.tbl.free := fun hc => ((hmem i).1 hc).2 hiA
    have hrel := Table.release_of_lt hicap
    show Inv (step s (Op.rel i))
    rw [show step s (Op.rel i)
        = ⟨{ s.tbl with blocks := (s.tbl.blocks.set (i / B) (Table.reset_row (s.tbl.get_block (i / B)) (i % B))), free := i :: s.tbl.free }, s.acquired.erase i⟩ from by
      rw [step, hrel]]
    have hcap2 : ({ s.tbl with blocks := (s.tbl.blocks.set (i / B) (Table.reset_row (s.tbl.get_block (i / B)) (i % B))), free := i :: s.tbl.free } : Table B R).get_capacity
        = s.tbl.get_capacity := by
      show (s.tbl.blocks.set _ _).length * B = s.tbl.blocks.length * B
      rw [List.length_set]
    refine ⟨hA.erase i, ?_, ?_, ?_, rfl⟩
    · intro j hj
      rw [hcap2]
      exact hAcap j (List.mem_of_mem_erase hj)
    · show (i :: s.tbl.free).Nodup
      exact List.nodup_cons.mpr ⟨hinf, hNd⟩
    · intro j
      show j ∈ i :: s.tbl.free ↔ _ ∧ j ∉ s.acquired.erase i
      rw [hcap2, List.mem_cons, hA.mem_erase_iff]
      constructor
      · rintro (rfl | hj)
        · exact ⟨hicap, fun hc => hc.1 rfl⟩
        · obtain ⟨hjc, hjA⟩ := (hmem j).1 hj
          exact ⟨hjc, fun hc => hjA hc.2⟩
      · rintro ⟨hjc, hjA⟩
        by_cases hji : j = i
        · exact Or.inl hji
        · exact Or.inr ((hmem j).2 ⟨hjc, fun hjA2 => hjA ⟨hji, hjA2⟩⟩)
  | acq =>
    rcases hf : s.tbl.free with _ | ⟨a, rest⟩
    · have hall : ∀ j, j < s.tbl.get_capacity → j ∈ s.acquired := by
        intro j hj
        by_contra hjA
        have hjf := (hmem j).2 ⟨hj, hjA⟩
        rw [hf] at hjf
        exact absurd hjf (List.not_mem_nil j)
      have hcapA : s.tbl.get_capacity ∉ s.acquired :=
        fun hc => Nat.lt_irrefl _ (hAcap _ hc)
      show Inv (step s Op.acq)
      rw [show step s Op.acq
          = ⟨{ s.tbl with blocks := s.tbl.blocks ++ [Table.new_block R], free := List.range' (s.tbl.get_capacity + 1) (B - 1) }, s.tbl.get_capacity :: s.acquired⟩ from by
        rw [step, Table.acquire_nil hf hB]]
      refine ⟨List.nodup_cons.mpr ⟨hcapA, hA⟩, ?_, ?_, ?_, rfl⟩
      · intro j hj
        rw [Table.get_capacity_grow]
        rcases List.mem_cons.mp hj with rfl | hj2
        · omega
        · have := hAcap j hj2
          omega
      · show (List.range' (s.tbl.get_capacity + 1) (B - 1)).Nodup
        exact List.nodup_range' _ _
      · intro j
        show j ∈ List.range' (s.tbl.get_capacity + 1) (B - 1) ↔ _
        rw [Table.get_capacity_grow, List.mem_range'_1, List.mem_cons]
        constructor
        · rintro ⟨hj1, hj2⟩
          refine ⟨by omega, ?_⟩
          rintro (rfl | hjA)
          · omega
          · have := hAcap j hjA
            omega
        · rintro ⟨hj1, hj2⟩
          have hjne : j ≠ s.tbl.get_capacity := fun hc => hj2 (Or.inl hc)
          have hjA : j ∉ s.acquired := fun hc => hj2 (Or.inr hc)
          have hjge : ¬(j < s.tbl.get_capacity) := fun hc => hjA (hall j hc)
          omega
    · obtain ⟨hacap, haA⟩ := (hmem a).1 (hf ▸ List.mem_cons_self a rest)
      have hnar : a ∉ rest ∧ rest.Nodup := List.nodup_cons.mp (hf ▸ hNd)
      show Inv (step s Op.acq)
      rw [show step s Op.acq
          = ⟨{ s.tbl with free := rest }, a :: s.acquired⟩ from by
        rw [step, Table.acquire_cons hf]]
      refine ⟨List.nodup_cons.mpr ⟨haA, hA⟩, ?_, hnar.2, ?_, rfl⟩
      · intro j hj
        rcases List.mem_cons.mp hj with rfl | hj2
        · exact hacap
        · exact hAcap j hj2
      · intro j
        show j ∈ rest ↔ j < s.tbl.get_capacity ∧ j ∉ a :: s.acquired
        rw [List.mem_cons]
        constructor
        · intro hj
          have hjf : j ∈ s.tbl.free := hf ▸ List.mem_cons_of_mem a hj
          obtain ⟨hjc, hjA⟩ := (hmem j).1 hjf
          have hja : j ≠ a := fun hc => hnar.1 (hc ▸ hj)
          exact ⟨hjc, fun hc => hc.elim hja hjA⟩
        · rintro ⟨hjc, hj2⟩
          have hja : j ≠ a := fun hc => hj2 (Or.inl hc)
          have hjA : j ∉ s.acquired := fun hc => hj2 (Or.inr hc)
          have hjf : j ∈ s.tbl.free := (hmem j).2 ⟨hjc, hjA⟩
          rw [hf] at hjf
          exact (List.mem_cons.mp hjf).resolve_left hja

theorem exec_inv (hB : 0 < B) :
    ∀ (ops : List Op) (s : SysState B R), Inv s → wfOps s ops = true → Inv (exec s ops) := by
  intro ops
  induction ops with
  | nil =>
    intro s hs _
    exact hs
  | cons op ops ih =>
    intro s hs hwf
    rw [wfOps, Bool.and_eq_true] at hwf
    exact ih _ (step_inv hB hs hwf.1) hwf.2

theorem init_inv (nm : String) : Inv (init B R nm) := by
  have hcap0 : (init B R nm).tbl.get_capacity = 0 := Nat.zero_mul B
  refine ⟨List.nodup_nil, fun j hj => absurd hj (List.not_mem_nil j), List.nodup_nil, ?_, rfl⟩
  intro j
  constructor
  · intro hj
    exact absurd hj (List.not_mem_nil j)
  · rintro ⟨hj, _⟩
    rw [hcap0] at hj
    exact absurd hj (Nat.not_lt_zero j)

end SysState

theorem listSwap_length {α : Type} [Inhabited α] (l : List α) (a b : Nat) :
    (listSwap l a b).length = l.length := by
  rw [listSwap, List.length_set, List.length_set]

theorem listSwap_getD_left {α : Type} [Inhabited α] (l : List α) (a b : Nat) (d : α)
    (ha : a < l.length) (hb : b < l.length) (hab : a ≠ b) :
    (listSwap l a b).getD a d = l.getD b d := by
  rw [listSwap, getD_set_ne _ _ _ _ _ (fun h => hab h.symm), getD_set_self _ _ _ _ ha,
    List.getD_eq_getElem _ _ hb, List.getD_eq_getElem _ _ hb]

theorem listSwap_getD_right {α : Type} [Inhabited α] (l : List α) (a b : Nat) (d : α)
    (ha : a < l.length) (hb : b < l.length) :
    (listSwap l a b).getD b d = l.getD a d := by
  rw [listSwap, getD_set_self _ _ _ _ (by simpa using hb),
    List.getD_eq_getElem _ _ ha, List.getD_eq_getElem _ _ ha]

theorem listSwap_getD_other {α : Type} [Inhabited α] (l : List α) (a b c : Nat) (d : α)
    (hca : c ≠ a) (hcb : c ≠ b) :
    (listSwap l a b).getD c d = l.getD c d := by
  rw [listSwap, getD_set_ne _ _ _ _ _ (fun h => hcb h.symm),
    getD_set_ne _ _ _ _ _ (fun h => hca h.symm)]

/-! Claim theorems. -/

/-- C1: for the block-chain table with block size `B`, starting from a
freshly constructed table, after exactly `k*B + 1` successful `acquire`
calls with no intervening `release`, `get_capacity()` returns `(k+1)*B`. -/
theorem C1_capacity_growth {R : Type} [Inhabited R] {B : Nat} (hB : 0 < B) (nm : String)
    (k : Nat) :
    (Table.acquireN (k * B + 1) (Table.fresh B R nm)).get_capacity = (k + 1) * B := by
  obtain ⟨h1, h2, h3⟩ := Table.acquireN_fresh_inv (R := R) hB nm (k * B + 1)
  set t := Table.acquireN (k * B + 1) (Table.fresh B R nm) with ht
  have hcap : t.get_capacity = t.blocks.length * B := rfl
  rcases h3 with h3 | h3
  · exfalso
    have hc0 : t.get_capacity = 0 := by rw [Table.get_capacity, h3, Nat.zero_mul]
    omega
  · have hk1 : k < t.blocks.length := by
      have h4 : k * B < t.blocks.length * B := by omega
      exact Nat.lt_of_mul_lt_mul_right h4
    have hk2 : t.blocks.length ≤ k + 1 := by
      have e : (k + 1) * B = k * B + B := Nat.succ_mul k B
      have h5 : t.blocks.length * B ≤ (k + 1) * B := by omega
      exact Nat.le_of_mul_le_mul_right h5 hB
    have hlen : t.blocks.length = k + 1 := Nat.le_antisymm hk2 hk1
    rw [hcap, hlen]

/-- Witness for C1 at `B = 2`, `k = 1`: three acquires from a fresh table
give capacity 4. -/
theorem C1_capacity_growth_witness :
    0 < 2 ∧ (Table.acquireN (1 * 2 + 1) (Table.fresh 2 Int "w")).get_capacity = (1 + 1) * 2 :=
  ⟨by decide, C1_capacity_growth (by decide) "w" 1⟩

/-- C2: growth never changes the value stored at any previously valid index:
for every table state `t`, every index `i < capacity`, and any number `n` of
further `acquire` calls (each of which may trigger the allocation of a new
block), the row read through `get` at `i` is unchanged.  Per-column `get<T>`
is a projection of this row, so each column value is unchanged as well. -/
theorem C2_index_stability {B : Nat} {R : Type} [Inhabited R] (t : Table B R) (i n : Nat)
    (h : i < t.get_capacity) :
    (Table.acquireN n t).getAt i = t.getAt i := by
  induction n with
  | zero => rfl
  | succ n ih =>
    have h2 : i < (Table.acquireN n t).get_capacity :=
      Nat.lt_of_lt_of_le h (Table.cap_le_acquireN t n)
    rw [show Table.acquireN (n + 1) t = ((Table.acquireN n t).acquire).2 from rfl,
      Table.getAt_acquire h2, ih]

/-- Witness for C2: a table with value 7 stored at index 0 and a full first
block; one more acquire (which grows the chain) leaves the read unchanged. -/
theorem C2_index_stability_witness :
    0 < exC2.get_capacity ∧ (Table.acquireN 1 exC2).getAt 0 = exC2.getAt 0 :=
  ⟨by decide, C2_index_stability exC2 0 1 (by decide)⟩

/-- C3: for every acquired index `i < capacity`, and any column update `f`
(in particular `set<T>(i, v)`): after `set` then `release(i)`, a re-`acquire`
returns the same index `i` and every column reads its default value; after
`set` then `release_no_reset(i)`, a re-`acquire` returns `i` and the row
still holds the previously set values (`f` applied to the old row), not the
default. -/
theorem C3_reset_on_release {B : Nat} {R : Type} [Inhabited R] (t : Table B R) (i : Nat)
    (f : R → R) (r : R) (h : i < t.get_capacity) (hr : t.getAt i = .ok r) :
    ((Table.tryRelease (Table.trySet t i f) i).acquire).1 = i ∧
    (((Table.tryRelease (Table.trySet t i f) i).acquire).2).getAt i = .ok (default : R) ∧
    (((Table.trySet t i f).release_no_reset i).acquire).1 = i ∧
    ((((Table.trySet t i f).release_no_reset i).acquire).2).getAt i = .ok (f r) := by
  have hset : Table.trySet t i f
      = { t with blocks := (t.blocks.set (i / B) (Table.upd_slot (t.get_block (i / B)) (i % B) f)) } := by
    rw [Table.trySet, Table.setAt_of_lt f h]
  set t1 : Table B R :=
    { t with blocks := (t.blocks.set (i / B) (Table.upd_slot (t.get_block (i / B)) (i % B) f)) }
    with ht1
  have hcap1 : t1.get_capacity = t.get_capacity := by
    show (t.blocks.set _ _).length * B = t.blocks.length * B
    rw [List.length_set]
  have h1 : i < t1.get_capacity := by rw [hcap1]; exact h
  have hrel : Table.tryRelease t1 i = { t1 with blocks := (t1.blocks.set (i / B) (Table.reset_row (t1.get_block (i / B)) (i % B))), free := i :: t1.free } := by
    rw [Table.tryRelease, Table.release_of_lt h1]
  set t2 : Table B R := { t1 with blocks := (t1.blocks.set (i / B) (Table.reset_row (t1.get_block (i / B)) (i % B))), free := i :: t1.free } with ht2
  have hacq2 : t2.acquire = (i, { t2 with free := t1.free }) :=
    Table.acquire_cons rfl
  have hget1 : t1.getAt i = .ok (f (t.get_block (i / B) (i % B))) := by
    rw [ht1, Table.getAt_set_blocks _ _ h]
    show Except.ok (Table.upd_slot _ _ _ (i % B)) = _
    rw [Table.upd_slot, if_pos rfl]
  have hfr : t.get_block (i / B) (i % B) = r := by
    rw [Table.getAt_of_lt h] at hr
    exact Except.ok.inj hr
  refine ⟨?_, ?_, ?_, ?_⟩
  · rw [hset, hrel, hacq2]
  · rw [hset, hrel, hacq2]
    show t2.getAt i = _
    rw [ht2, Table.getAt_set_blocks _ _ h1]
    show Except.ok (Table.reset_row _ _ (i % B)) = _
    rw [Table.reset_row, Table.upd_slot, if_pos rfl]
  · rw [hset]
    exact congrArg Prod.fst (Table.acquire_cons rfl)
  · rw [hset]
    have hacq3 : (t1.release_no_reset i).acquire = (i, { t1 with free := t1.free }) :=
      Table.acquire_cons rfl
    rw [hacq3]
    show t1.getAt i = _
    rw [hget1, hfr]

/-- C4: for every sequence of structural operations in which the caller
releases only currently-acquired indices and never double-releases, starting
from a fresh table: the free-index list never contains duplicates, contains
exactly the indices in `[0, capacity)` not currently acquired, and at all
times `get_active_row_count()` equals `get_capacity()` minus the number of
currently free indices. -/
theorem C4_free_list_invariant {B : Nat} {R : Type} [Inhabited R] (hB : 0 < B) (nm : String)
    (ops : List Op) (hwf : SysState.wfOps (SysState.init B R nm) ops = true) :
    SysState.Inv (SysState.exec (SysState.init B R nm) ops) :=
  SysState.exec_inv hB ops _ (SysState.init_inv nm) hwf

/-- Witness for C4 on a sequence exercising acquire, both release variants
and clear (block size 2). -/
theorem C4_free_list_invariant_witness :
    (0 < 2 ∧ SysState.wfOps (SysState.init 2 Int "w") opsC4 = true) ∧
    SysState.Inv (SysState.exec (SysState.init 2 Int "w") opsC4) :=
  ⟨⟨by decide, by decide⟩, C4_free_list_invariant (by decide) "w" opsC4 (by decide)⟩

/-- C10 (implicit): free indices are reused in LIFO order — with a nonempty
free vector, `acquire` returns exactly its back (`headD` of the back-first
model); `release(i)` or `release_no_reset(i)` immediately followed by
`acquire` returns exactly `i`; and when the free vector is empty the next
`BlockSize` acquires return the freshly seeded block's indices in
increasing numeric order `capacity, capacity+1, …`. -/
theorem C10_lifo_reuse {B : Nat} {R : Type} [Inhabited R] (t : Table B R) (i : Nat) :
    (t.free ≠ [] → (t.acquire).1 = t.free.headD 0) ∧
    (∀ u, t.release i = .ok u → (u.acquire).1 = i) ∧
    (((t.release_no_reset i).acquire).1 = i) ∧
    (t.free = [] → 0 < B → (Table.acquireList B t).1 = List.range' t.get_capacity B) := by
  refine ⟨?_, ?_, ?_, ?_⟩
  · intro hne
    rcases hf : t.free with _ | ⟨a, rest⟩
    · exact absurd hf hne
    · rw [Table.acquire_cons hf]
      rfl
  · intro u hu
    cases hml : t.make_lookup i with
    | error e =>
      rw [Table.release, hml] at hu
      exact absurd hu (by simp [Except.map])
    | ok lk =>
      rw [Table.release, hml] at hu
      simp only [Except.map] at hu
      injection hu with hu2
      subst hu2
      rw [Table.acquire_cons rfl]
  · exact congrArg Prod.fst (Table.acquire_cons rfl)
  · intro hf hB
    obtain ⟨b, rfl⟩ : ∃ b, B = b + 1 := ⟨B - 1, (Nat.succ_pred_eq_of_pos hB).symm⟩
    have hacq := Table.acquire_nil hf hB
    simp only [Table.acquireList, hacq]
    rw [Table.acquireList_range' b _ (t.get_capacity + 1) b rfl (Nat.le_refl b),
      List.range'_succ]

/-- Witness for C10: LIFO pop with nonempty free vector, release-then-
acquire and release_no_reset-then-acquire both returning the released
index, and the seeded block handed out in increasing order. -/
theorem C10_lifo_reuse_witness :
    (exT1.free ≠ [] ∧ (exT1.acquire).1 = exT1.free.headD 0) ∧
    (exT1.release 0 = .ok exRel ∧ (exRel.acquire).1 = 0) ∧
    ((exT1.release_no_reset 0).acquire).1 = 0 ∧
    (exT0.free = [] ∧ 0 < 2 ∧
      (Table.acquireList 2 exT0).1 = List.range' exT0.get_capacity 2) := by
  have hmain := C10_lifo_reuse exT1 0
  have hmain0 := C10_lifo_reuse exT0 0
  exact ⟨⟨by decide, hmain.1 (by decide)⟩, ⟨rfl, hmain.2.1 exRel rfl⟩,
    hmain.2.2.1, by decide, by decide, hmain0.2.2.2 rfl (by decide)⟩

/-- Witness for C3 at index 0 of a two-acquire table with `f = (· + 5)`. -/
theorem C3_reset_on_release_witness :
    (0 < (Table.acquireN 2 exT0).get_capacity ∧ (Table.acquireN 2 exT0).getAt 0 = .ok 0) ∧
    ((Table.tryRelease (Table.trySet (Table.acquireN 2 exT0) 0 (fun x => x + 5)) 0).acquire).1
        = 0 ∧
    (((Table.tryRelease (Table.trySet (Table.acquireN 2 exT0) 0 (fun x => x + 5)) 0).acquire).2).getAt 0
        = .ok (default : Int) ∧
    (((Table.trySet (Table.acquireN 2 exT0) 0 (fun x => x + 5)).release_no_reset 0).acquire).1
        = 0 ∧
    ((((Table.trySet (Table.acquireN 2 exT0) 0 (fun x => x + 5)).release_no_reset 0).acquire).2).getAt 0
        = .ok ((0 : Int) + 5) := by
  have hmain := C3_reset_on_release (Table.acquireN 2 exT0) 0 (fun x => x + 5) 0
    (by decide) (by decide)
  exact ⟨⟨by decide, by decide⟩, hmain.1, hmain.2.1, hmain.2.2.1, hmain.2.2.2⟩

/-- C5 (amended): `erase(i)` swaps the backing slot of `i` with the backing
slot referenced by the last `index_map_` entry — the entry of the
highest-ever-issued public index, which is the current last live row's slot
whenever that index is live — swaps those two `index_map_` entries, reclaims
`i` and decrements size by one; it invalidates no index other than `i`:
every other public index `j` still resolves via `get` to the same value as
before the erase.  Hypotheses: `index_map_` is duplicate-free, its entries
are in range of the backing store, both indices are in the ever-issued
range, and the store is nonempty. -/
theorem C5_swap_erase_preserves {R : Type} [Inhabited R] (t : FlexTable R) (i j : Nat)
    (hnd : t.index_map.Nodup)
    (hbound : ∀ s ∈ t.index_map, s < t.data.length)
    (hi : i < t.index_map.length) (hj : j < t.index_map.length)
    (hji : j ≠ i) (hs : 0 < t.size) :
    (t.erase i).getAt j = t.getAt j ∧
    (t.erase i).size + 1 = t.size ∧
    (t.erase i).free = i :: t.free ∧
    (t.erase i).is_valid i = false := by
  have hlast : t.index_map.length - 1 < t.index_map.length := by omega
  have hp : t.index_map.getD i 0 < t.data.length :=
    hbound _ (getD_mem _ _ _ hi)
  have hq : t.index_map.getD (t.index_map.length - 1) 0 < t.data.length :=
    hbound _ (getD_mem _ _ _ hlast)
  refine ⟨?_, by show t.size - 1 + 1 = t.size; omega, rfl, ?_⟩
  · show (listSwap t.data _ _).getD ((listSwap t.index_map i (t.index_map.length - 1)).getD j 0) default
      = t.data.getD (t.index_map.getD j 0) default
    by_cases hjl : j = t.index_map.length - 1
    · subst hjl
      have hil : i ≠ t.index_map.length - 1 := fun h => hji h.symm
      have hpq : t.index_map.getD i 0 ≠ t.index_map.getD (t.index_map.length - 1) 0 :=
        nodup_getD_ne hnd hi hlast hil
      rw [listSwap_getD_right _ _ _ _ hi hlast,
        listSwap_getD_left _ _ _ _ hp hq hpq]
    · rw [listSwap_getD_other _ _ _ _ _ hji hjl]
      have hrp : t.index_map.getD j 0 ≠ t.index_map.getD i 0 :=
        nodup_getD_ne hnd hj hi hji
      have hrq : t.index_map.getD j 0 ≠ t.index_map.getD (t.index_map.length - 1) 0 :=
        nodup_getD_ne hnd hj hlast hjl
      rw [listSwap_getD_other _ _ _ _ _ hrp hrq]
  · have hL : ¬((listSwap t.index_map i (t.index_map.length - 1)).length ≤ i) := by
      rw [listSwap_length]
      omega
    rw [FlexTable.is_valid]
    simp only [FlexTable.erase]
    rw [if_neg hL]
    simp

/-- Witness for the amended C5 on the concrete store with values
10, 20, 30, 40 after `erase(3)`, erasing index 0 and checking index 1. -/
theorem C5_swap_erase_preserves_witness :
    (ce5pre.index_map.Nodup ∧ (∀ s ∈ ce5pre.index_map, s < ce5pre.data.length) ∧
      0 < ce5pre.index_map.length ∧ 1 < ce5pre.index_map.length ∧ (1 : Nat) ≠ 0 ∧
      0 < ce5pre.size) ∧
    ((ce5pre.erase 0).getAt 1 = ce5pre.getAt 1 ∧ (ce5pre.erase 0).size + 1 = ce5pre.size ∧
      (ce5pre.erase 0).free = 0 :: ce5pre.free ∧ (ce5pre.erase 0).is_valid 0 = false) := by
  have hmain := C5_swap_erase_preserves ce5pre 0 1 (by decide) (by decide) (by decide)
    (by decide) (by decide) (by decide)
  exact ⟨⟨by decide, by decide, by decide, by decide, by decide, by decide⟩, hmain⟩

/-- C5 counterexample to the claim as stated: after `add()`×4 with values
10, 20, 30, 40 and `erase(3)`, the store `ce5pre` has live public indices
0, 1, 2 in backing slots 0, 1, 2, so the current last live row occupies
backing slot 2 (`lastLiveSlot`).  The claim says `erase(0)` swaps backing
slot `index_map_[0] = 0` with the last live row's slot 2 and touches no
other slot; but the code swaps with slot 3 (the slot of the *erased*
public index 3, referenced by `index_map_.back()`), so backing slot 3 —
neither of the two slots the claim allows — changes from 40 to 10. -/
theorem C5_swap_counterexample :
    ce5pre.size = 3 ∧ FlexTable.lastLiveSlot ce5pre = 2 ∧
    ce5pre.is_valid 0 = true ∧ ce5pre.is_valid 1 = true ∧ ce5pre.is_valid 2 = true ∧
    ce5pre.is_valid 3 = false ∧
    ce5pre.index_map = [0, 1, 2, 3] ∧
    ce5pre.data = [10, 20, 30, 40] ∧
    ce5pre.index_map.getD 0 0 = 0 ∧
    (ce5pre.erase 0).data = [40, 20, 30, 10] ∧
    (ce5pre.erase 0).data.getD 3 0 ≠ ce5pre.data.getD 3 0 ∧
    (3 : Nat) ≠ ce5pre.index_map.getD 0 0 ∧
    (3 : Nat) ≠ FlexTable.lastLiveSlot ce5pre := by decide

/-- C6: evaluation of the code at the failing input `add(), add(),
erase(1), clear()`: `clear` resizes the free vector to the pre-clear *live*
count (1), so it ends up holding only `[0]`; the ever-issued index 1 is not
in it and `is_valid(1)` reports `true`, contradicting the claim that after
`clear` every ever-issued index is invalid and reusable. -/
theorem C6_clear_free_list_eval :
    c6state.size = 0 ∧ c6state.index_map = [0, 1] ∧ c6state.free = [0] ∧
    c6state.is_valid 1 = true ∧ (1 : Nat) ∉ c6state.free := by decide

/-- C7 (amended): in the block-chain family the out-of-range error — whose
payload carries the table name, the offending index and the current
capacity — is raised exactly by the operations that perform a checked
lookup: `get`/`getRow`/`set` *and* `release` (whose reset step looks the
index up), each if and only if the index is `≥ capacity`.  `acquire`,
`release_no_reset`, `clear`, `find`, `visit`, `get_capacity` and
`get_active_row_count` have no throw path (they are total functions of the
state), and the indirection family performs no bounds or liveness check at
all and never raises. -/
theorem C7_error_taxonomy {B : Nat} {R : Type} [Inhabited R] (t : Table B R) (i : Nat)
    (f : R → R) :
    (t.get_capacity ≤ i →
      (t.getAt i = .error ⟨t.name, i, t.get_capacity⟩ ∧
       t.setAt i f = .error ⟨t.name, i, t.get_capacity⟩ ∧
       t.release i = .error ⟨t.name, i, t.get_capacity⟩)) ∧
    (i < t.get_capacity →
      ((∃ r, t.getAt i = .ok r) ∧ (∃ u, t.setAt i f = .ok u) ∧ (∃ u, t.release i = .ok u))) := by
  constructor
  · intro h
    refine ⟨?_, ?_, ?_⟩
    · rw [Table.getAt, Table.make_lookup_of_ge h]
      rfl
    · rw [Table.setAt, Table.make_lookup_of_ge h]
      rfl
    · rw [Table.release, Table.make_lookup_of_ge h]
      rfl
  · intro h
    exact ⟨⟨_, Table.getAt_of_lt h⟩, ⟨_, Table.setAt_of_lt f h⟩, ⟨_, Table.release_of_lt h⟩⟩

/-- Witness for the amended C7: an out-of-range read on the empty table
errors with the exact payload; an in-range read on a grown table succeeds. -/
theorem C7_error_taxonomy_witness :
    (exT0.get_capacity ≤ 5 ∧ exT0.getAt 5 = .error ⟨"w", 5, 0⟩) ∧
    (0 < exT1.get_capacity ∧ ∃ r, exT1.getAt 0 = .ok r) := by
  have h1 := (C7_error_taxonomy exT0 5 id).1 (by decide)
  have h2 := (C7_error_taxonomy exT1 0 id).2 (by decide)
  exact ⟨⟨by decide, h1.1⟩, ⟨by decide, h2.1⟩⟩

/-- C7 counterexample to the claim as stated, on both families: (a) the
arena-family `release` is *not* error-free — on a fresh table (capacity 0)
`release(0)` raises the out-of-range error, though the claim says only the
element accessors raise; (b) the indirection-family `get` raises nothing on
a reclaimed index — after `add(), add(), set(0,10), set(1,20), erase(0)`,
index 0 is invalid yet `get<Int>(0)` silently returns the stale backing
value 10 instead of raising the claimed reportable error. -/
theorem C7_counterexample :
    ((Table.fresh 2 Int "t").release 0 = .error ⟨"t", 0, 0⟩) ∧
    (ce7flex.is_valid 0 = false ∧ ce7flex.getAt 0 = 10) :=
  ⟨rfl, by decide, by decide⟩

/-- C8: the spec's §8 scenario on block size 2 and columns `(Int, Float)`:
acquiring three times yields 0, 1, 2 and capacity 4; after setting rows 0
and 1 and releasing 0, the active row count is 2; re-acquiring returns 0
with the `Int` column back at its default 0; after `clear`, three more
acquires yield 0, 1, 2 again, capacity stays 4, and every column of every
row reads its default value. -/
theorem C8_scenario :
    c8a1.1 = 0 ∧ c8a2.1 = 1 ∧ c8a3.1 = 2 ∧ c8a3.2.get_capacity = 4 ∧
    c8rel.get_active_row_count = 2 ∧
    c8re.1 = 0 ∧ (c8re.2.getAt 0).map Prod.fst = .ok 0 ∧
    c8f1.1 = 0 ∧ c8f2.1 = 1 ∧ c8f3.1 = 2 ∧ c8f3.2.get_capacity = 4 ∧
    c8f3.2.getAt 0 = .ok (0, 0) ∧ c8f3.2.getAt 1 = .ok (0, 0) ∧
    c8f3.2.getAt 2 = .ok (0, 0) ∧ c8f3.2.getAt 3 = .ok (0, 0) := by decide

end Ent
